import Mathlib

/-!
Verification of the CFGen flow-matching engine (`celldreamer/models/fm/fm.py`)
and the RNA-seq data loader (`cfgen/data/scrnaseq_loader.py`) against their
natural-language specification.

Minibatch tensors of shape (B, *dim) are modelled as lists of rows over `ℚ`
(one row per cell, the trailing dimensions flattened into the row).  Stateful
training-loop behaviour is modelled by explicit state passing; Python
exceptions (assertion errors, type errors) are modelled with `Except`.
-/

namespace CFGen

/-- A (B, G)-shaped torch tensor: one row per cell of the minibatch; the inner
list holds the (flattened) trailing dimensions. -/
abbrev Mat := List (List ℚ)

/-- Elementwise combination of two tensors, as torch applies a binary
operation to two tensors of identical shape. -/
def zipWith2d (f : ℚ → ℚ → ℚ) (a b : Mat) : Mat :=
  List.zipWith (fun r s => List.zipWith f r s) a b

/-- Shape of a tensor: the list of row lengths. -/
def shape (a : Mat) : List ℕ := a.map List.length

/-- Two tensors have equal torch shape. -/
def sameShape (a b : Mat) : Prop := shape a = shape b

/-- Row `i` of a tensor (`[]` out of bounds). -/
def row (a : Mat) (i : ℕ) : List ℚ := a.getD i []

/-- Entry `(i, j)` of a tensor (`0` out of bounds). -/
def entry (a : Mat) (i j : ℕ) : ℚ := (row a i).getD j 0

/-- A tensor of zeros with the shape of `x` (`torch.zeros_like`). -/
def zerosLike (x : Mat) : Mat := x.map (fun r => r.map (fun _ => 0))

/-- Modelled from the spec: `pad_t_like_x` (celldreamer/models/base/utils.py is
not under src/).  The spec requires the per-sample time vector to be "broadcast
to match tensor rank", "batch dim aligned, remaining dims treated as
singleton-broadcast"; hence a padded `t` multiplied against a (B, G) tensor
scales row `i` by `t i`.  `scaleRows t x` is that padded product `t * x`. -/
def scaleRows (t : List ℚ) (x : Mat) : Mat :=
  List.zipWith (fun ti r => r.map (fun v => ti * v)) t x

namespace FM

/-- `FM.compute_mu_t` (fm.py:390-412): `t = pad_t_like_x(t, x0); mu_t = t * x1
+ (1 - t) * x0`.  The scalar-minus-tensor `1 - t` maps each padded time to
`1 - t i`. -/
def compute_mu_t (x0 x1 : Mat) (t : List ℚ) : Mat :=
  zipWith2d (· + ·) (scaleRows t x1) (scaleRows (t.map (fun ti => 1 - ti)) x0)

/-- `FM.compute_sigma_t` (fm.py:414-431): `del t; return self.sigma`.  The
configured scale `σ` is a Python float, so `pad_t_like_x` leaves it a scalar
that broadcasts over every entry. -/
def compute_sigma_t (σ : ℚ) (t : List ℚ) : ℚ := σ

/-- `FM.sample_xt` (fm.py:363-388): `mu_t = compute_mu_t(x0, x1, t); sigma_t =
pad_t_like_x(compute_sigma_t(t), x0); return mu_t + sigma_t * epsilon`. -/
def sample_xt (σ : ℚ) (x0 x1 : Mat) (t : List ℚ) (epsilon : Mat) : Mat :=
  zipWith2d (fun m e => m + compute_sigma_t σ t * e) (compute_mu_t x0 x1 t) epsilon

/-- `FM.compute_conditional_flow` (fm.py:433-456): `del t, xt; return x1 - x0`. -/
def compute_conditional_flow (x0 x1 : Mat) (t : List ℚ) (xt : Mat) : Mat :=
  zipWith2d (fun a b => a - b) x1 x0

end FM

/-- `torch.arange(start, end, step)` for a positive rational step: a 1-D tensor
of size `⌈(end - start) / step⌉` holding `start + k * step` for consecutive
`k`. -/
def torch_arange (start stop step : ℚ) : List ℚ :=
  (List.range (Int.toNat ⌈(stop - start) / step⌉)).map
    (fun k : ℕ => start + (k : ℚ) * step)

namespace FM

/-- `FM._sample_times` (fm.py:218-233).  The random draws are passed
explicitly: `t0` models `np.random.uniform(0, 1 / batch_size)` (so the caller
guarantees `0 ≤ t0 < 1 / B`) and `rand` models `torch.rand(batch_size)`, the
vector of `B` i.i.d. uniform(0,1) draws.  If `antithetic_time_sampling` is
set, the result is `torch.arange(t0, 1.0, 1.0 / batch_size)`; otherwise it is
`rand`. -/
def _sample_times (antithetic : Bool) (batch_size : ℕ) (t0 : ℚ) (rand : List ℚ) :
    List ℚ :=
  if antithetic then torch_arange t0 1 (1 / (batch_size : ℚ)) else rand

end FM

/-- Arithmetic mean of a 1-D tensor (`torch.Tensor.mean`). -/
def listMean (l : List ℚ) : ℚ := l.sum / l.length

/-- `torch.nn.MSELoss()` with its default mean reduction (fm.py:83): the mean
of the squared entrywise differences over all elements of two equally shaped
tensors. -/
def mse_loss (u v : Mat) : ℚ :=
  (List.zipWith (fun r s => (List.zipWith (fun a b => (a - b)^2) r s).sum) u v).sum
    / ((u.map List.length).sum)

namespace FM

/-- Loss computation of `FM._step` (fm.py:126-198), the collaborator outputs
passed explicitly: `recon` is the matrix of per-cell, per-gene negative
binomial reconstruction losses produced by `log_probs_x_z0` (line 158), and
`ut`, `vt` are the target and predicted velocity tensors entering the MSE
criterion (lines 181-185).  Mirroring the source control flow:
`recons_loss_enc` is assigned (the per-cell sum over genes) only when
`current_epoch < pretraining_encoder_epochs and pretrain_encoder` (line 157);
the flow-matching branch runs when `(current_epoch >=
pretraining_encoder_epochs and pretrain_encoder) or not pretrain_encoder`
(line 173); the final `else` returns `recons_loss_enc` — a Python `NameError`
(modelled as `Except.error`) if it was never assigned.  The returned scalar
is `loss.mean()` (line 198). -/
def _step_loss (pretrain_encoder : Bool)
    (current_epoch pretraining_encoder_epochs : ℕ)
    (recon ut vt : Mat) : Except String ℚ :=
  let recons_loss_enc : Option (List ℚ) :=
    if current_epoch < pretraining_encoder_epochs ∧ pretrain_encoder = true then
      some (recon.map List.sum)
    else none
  if (pretraining_encoder_epochs ≤ current_epoch ∧ pretrain_encoder = true)
      ∨ pretrain_encoder = false then
    Except.ok (mse_loss ut vt)
  else
    match recons_loss_enc with
    | some v => Except.ok (listMean v)
    | none => Except.error "NameError: recons_loss_enc"

end FM

/-- Encoder variants selectable by `encoder_type` (fm.py:33, 89-98). -/
inductive EncoderType
  | fixed
  | learnt_encoder
  | learnt_autoencoder
deriving DecidableEq

/-- Learning rate and weight decay of the single Adam parameter group. -/
structure OptState where
  lr : ℚ
  weight_decay : ℚ
deriving DecidableEq

/-- Training state tracked across steps: one `requires_grad` flag per
encoder (`x0_from_x`) parameter, one per decoder (`x_from_x0`) parameter,
and the optimizer's parameter-group state. -/
structure TrainState where
  enc_requires_grad : List Bool
  dec_requires_grad : List Bool
  opt : OptState
deriving DecidableEq

namespace FM

/-- `FM.configure_optimizers` (fm.py:476-498): for the learnt encoder
variants the Adam optimizer is created with `lr=0.001` (and torch's default
`weight_decay=0`); otherwise with the configured learning rate and weight
decay. -/
def configure_optimizers (encoder_type : EncoderType)
    (learning_rate weight_decay : ℚ) : OptState :=
  if encoder_type = .learnt_encoder ∨ encoder_type = .learnt_autoencoder then
    { lr := 1/1000, weight_decay := 0 }
  else
    { lr := learning_rate, weight_decay := weight_decay }

/-- Initial training state: the encoder `x0_from_x` (with `n_enc` trainable
parameters) exists only for the learnt variants and the decoder `x_from_x0`
(with `n_dec` trainable parameters) only for `learnt_autoencoder`
(fm.py:89-98); every parameter starts with `requires_grad = True`, and the
optimizer state comes from `configure_optimizers`. -/
def init_state (encoder_type : EncoderType) (n_enc n_dec : ℕ)
    (learning_rate weight_decay : ℚ) : TrainState :=
  { enc_requires_grad :=
      if encoder_type = .learnt_encoder ∨ encoder_type = .learnt_autoencoder then
        List.replicate n_enc true
      else []
    dec_requires_grad :=
      if encoder_type = .learnt_autoencoder then List.replicate n_dec true else []
    opt := configure_optimizers encoder_type learning_rate weight_decay }

/-- State mutation performed by one `_step` (fm.py:162-171): when
`current_epoch == pretraining_encoder_epochs and pretrain_encoder and
encoder_type in ["learnt_encoder", "learnt_autoencoder"]`, every `x0_from_x`
parameter gets `requires_grad = False` (and every `x_from_x0` parameter too
for `learnt_autoencoder`), and the optimizer's `lr` and `weight_decay` are
reset to the configured values; otherwise the state is untouched. -/
def step_freeze (pretrain_encoder : Bool) (encoder_type : EncoderType)
    (pretraining_encoder_epochs current_epoch : ℕ)
    (learning_rate weight_decay : ℚ) (s : TrainState) : TrainState :=
  if current_epoch = pretraining_encoder_epochs ∧ pretrain_encoder = true ∧
      (encoder_type = .learnt_encoder ∨ encoder_type = .learnt_autoencoder) then
    { enc_requires_grad := s.enc_requires_grad.map (fun _ => false)
      dec_requires_grad :=
        if encoder_type = .learnt_autoencoder then
          s.dec_requires_grad.map (fun _ => false)
        else s.dec_requires_grad
      opt := { lr := learning_rate, weight_decay := weight_decay } }
  else s

/-- Runs the freeze transition of `_step` over a sequence of step epochs (the
trainer calls `_step` once per batch, passing the current epoch number). -/
def run_steps (pretrain_encoder : Bool) (encoder_type : EncoderType)
    (pretraining_encoder_epochs : ℕ) (learning_rate weight_decay : ℚ)
    (epochs : List ℕ) (s : TrainState) : TrainState :=
  epochs.foldl
    (fun s e => step_freeze pretrain_encoder encoder_type
      pretraining_encoder_epochs e learning_rate weight_decay s) s

/-- Post-transition property of the joint phase: every encoder (and, for the
autoencoder variant, decoder) parameter is frozen and the optimizer runs at
the configured learning rate and weight decay. -/
def FrozenState (encoder_type : EncoderType) (learning_rate weight_decay : ℚ)
    (s : TrainState) : Prop :=
  (∀ p ∈ s.enc_requires_grad, p = false) ∧
  (encoder_type = .learnt_autoencoder → ∀ p ∈ s.dec_requires_grad, p = false) ∧
  s.opt.lr = learning_rate ∧ s.opt.weight_decay = weight_decay

end FM

/-- Argument passed to a torch API: a Python int, a tensor (tracked by its
shape; the random entries are irrelevant here) or a Python bool. -/
inductive TorchArg
  | pyInt (n : ℕ)
  | tensor (s : List ℕ)
  | pyBool (b : Bool)
deriving DecidableEq

/-- `torch.randn(n)`: a fresh 1-D tensor of length `n`. -/
def torch_randn (n : ℕ) : TorchArg := .tensor [n]

/-- `torch.nn.Parameter(data, requires_grad)`: wraps a tensor into a trainable
parameter, returning its shape; torch raises `TypeError` when `data` is not a
tensor. -/
def nn_Parameter (data requires_grad : TorchArg) : Except String (List ℕ) :=
  match data with
  | .tensor s => .ok s
  | _ => .error "TypeError: Parameter data must be a Tensor"

namespace FM

/-- Construction of the dispersion parameter `self.theta` in `FM.__init__`
(fm.py:100-105), transcribed argument for argument: without
`covariate_specific_theta` it is `Parameter(torch.randn(self.in_dim),
requires_grad=True)`; with it the source calls `Parameter(n_cat,
torch.randn(self.in_dim), requires_grad=True)`, passing the category count
itself as the first (`data`) argument and the random tensor as the second
(`requires_grad`) argument. -/
def init_theta (covariate_specific_theta : Bool) (n_cat in_dim : ℕ) :
    Except String (List ℕ) :=
  if ¬covariate_specific_theta then
    nn_Parameter (torch_randn in_dim) (.pyBool true)
  else
    nn_Parameter (.pyInt n_cat) (torch_randn in_dim)

end FM

/-- Modelled from the spec: `OTPlanSampler.sample_plan`
(celldreamer/models/fm/ot_sampler.py is not under src/).  Per spec 4.1 the
sampler "returns a reordering (or resampling) of the second batch" matched to
the first under the minibatch OT plan, and "output shape matches input"; the
randomly drawn plan is modelled by the index maps `plan0`, `plan1`, and each
returned batch has one row per row of `x0`. -/
def sample_plan (plan0 plan1 : ℕ → ℕ) (x0 x1 : Mat) : Mat × Mat :=
  ((List.range x0.length).map (fun i => row x0 (plan0 i)),
   (List.range x0.length).map (fun i => row x1 (plan1 i)))

namespace FM

/-- `FM.sample_location_and_conditional_flow` (fm.py:322-361): resample the
pair from the OT coupling, fill in `t` by the uniform draws `t_rand` when not
supplied, then `assert len(t) == x0.shape[0]` — an `AssertionError`
(modelled as `Except.error`) surfaces before the noise `eps` is consumed to
build `xt` and `ut`. -/
def sample_location_and_conditional_flow (σ : ℚ) (plan0 plan1 : ℕ → ℕ)
    (x0 x1 : Mat) (t? : Option (List ℚ)) (t_rand : List ℚ) (eps : Mat) :
    Except String (List ℚ × Mat × Mat) :=
  let p := sample_plan plan0 plan1 x0 x1
  let t := match t? with
    | none => t_rand
    | some tt => tt
  if t.length = p.1.length then
    let xt := sample_xt σ p.1 p.2 t eps
    Except.ok (t, xt, compute_conditional_flow p.1 p.2 t xt)
  else
    Except.error "AssertionError: t has to have batch size dimension"

end FM

/-- `np.unique(cov)` (scrnaseq_loader.py:80): the sorted list of the distinct
values occurring in `cov`. -/
def np_unique {α : Type} [LinearOrder α] [DecidableEq α] (l : List α) : List α :=
  l.toFinset.sort (· ≤ ·)

namespace RNAseqLoader

/-- `self.id2cov[cov_name]` (scrnaseq_loader.py:81-82): the dictionary
`dict(zip(unique_cov, np.arange(len(unique_cov))))`, mapping each distinct
covariate value to its position in the sorted unique list. -/
def id2cov {α : Type} [LinearOrder α] [DecidableEq α] (l : List α) (c : α) : ℕ :=
  (np_unique l).indexOf c

/-- `self.Y_cov[cov_name]` (scrnaseq_loader.py:83):
`torch.tensor([zip_cov_cat[c] for c in cov])`. -/
def Y_cov {α : Type} [LinearOrder α] [DecidableEq α] (l : List α) : List ℕ :=
  l.map (id2cov l)

/-- Covariate index carried by the item returned by `__getitem__`
(scrnaseq_loader.py:111): `y = {cov: self.Y_cov[cov][i] for cov in
self.Y_cov}`. -/
def getitem_y {α : Type} [LinearOrder α] [DecidableEq α] (l : List α) (i : ℕ) : ℕ :=
  (Y_cov l).getD i 0

end RNAseqLoader

/-- A real-valued minibatch tensor, for the decode path whose softmax needs
the real exponential. -/
abbrev MatR := List (List ℝ)

/-- `F.softmax(z, dim=1)` applied to one row: entry `j` is
`exp z_j / Σ_k exp z_k`. -/
noncomputable def softmaxRow (z : List ℝ) : List ℝ :=
  z.map (fun v => Real.exp v / (z.map Real.exp).sum)

/-- Modelled from the spec: `CellDecoder`
(celldreamer/models/base/cell_decoder.py is not under src/).  Per spec 4.4
the fixed-variant decode "applies an inverse, distribution-shape-preserving
transform plus a learnt per-dataset correction, then rescales by size
factor", under the contract that decode "always returns a non-negative
vector per cell whose row-sum equals `size_factor`".  The inverse transform
is modelled as clamping to non-negative values and renormalising the row to
the simplex before rescaling by the size factor (uniform profile when the
clamped row vanishes). -/
noncomputable def cell_decoder (z : List ℝ) (size_factor : ℝ) : List ℝ :=
  let w := z.map (fun v => max v 0)
  if w.sum = 0 then z.map (fun _ => size_factor / z.length)
  else w.map (fun v => v / w.sum * size_factor)

namespace FM

/-- `FM._decode` (fm.py:309-317).  The external collaborators stay abstract:
`scaler_unscale` is `self.scaler.scale(z, reverse=True)` and `x_from_x0` the
decoder MLP of the `learnt_autoencoder` variant.  For the learnt variants
each row goes through `F.softmax(..., dim=1)` and is multiplied by the
per-cell size factor; otherwise the inverse-scaled row goes through the
`CellDecoder`. -/
noncomputable def _decode (encoder_type : EncoderType)
    (scaler_unscale x_from_x0 : List ℝ → List ℝ)
    (z : MatR) (size_factor : List ℝ) : MatR :=
  if encoder_type ≠ .learnt_autoencoder ∧ encoder_type ≠ .learnt_encoder then
    List.zipWith (fun r sf => cell_decoder (scaler_unscale r) sf) z size_factor
  else
    let z1 := if encoder_type = .learnt_autoencoder then z.map x_from_x0 else z
    List.zipWith (fun r sf => (softmaxRow r).map (fun v => v * sf)) z1 size_factor

end FM


/-- C5: the scalar loss returned by `_step` is exactly one of the two
objectives, never a combination: in the pretraining phase (pretraining
enabled and `current_epoch < pretraining_encoder_epochs`) it is the mean
over the batch of the per-cell negative-binomial reconstruction losses
summed over genes, and otherwise it is the mean-squared error between the
target velocity `ut` and the predicted velocity `vt`; in particular the
`NameError` fallthrough of the source's `else` branch is unreachable. -/
theorem _step_loss_spec (pretrain_encoder : Bool)
    (current_epoch pretraining_encoder_epochs : ℕ) (recon ut vt : Mat) :
    FM._step_loss pretrain_encoder current_epoch pretraining_encoder_epochs
        recon ut vt
      = Except.ok
          (if pretrain_encoder = true ∧
              current_epoch < pretraining_encoder_epochs then
            listMean (recon.map List.sum)
          else mse_loss ut vt) := by
  cases pretrain_encoder with
  | false => simp [FM._step_loss]
  | true =>
    by_cases he : current_epoch < pretraining_encoder_epochs
    · simp [FM._step_loss, he, Nat.not_le.mpr he]
    · simp [FM._step_loss, he, Nat.le_of_not_lt he]

/-- C8 (code bug): constructing `FM` with `covariate_specific_theta` enabled
never creates the `n_cat`-row dispersion table — the source passes `n_cat`
itself as the `data` argument of `torch.nn.Parameter`, which raises
`TypeError` for every category count and gene count; with the flag disabled a
per-gene parameter of shape `[in_dim]` is created.  Evaluated at `n_cat = 3`,
`in_dim = 5`. -/
theorem init_theta_covariate_specific_raises :
    FM.init_theta true 3 5
        = Except.error "TypeError: Parameter data must be a Tensor" ∧
    FM.init_theta false 3 5 = Except.ok [5] ∧
    ∀ n_cat in_dim : ℕ, ∃ msg,
      FM.init_theta true n_cat in_dim = Except.error msg := by
  refine ⟨rfl, rfl, ?_⟩
  intro n_cat in_dim
  exact ⟨_, rfl⟩

/-- C9: a supplied time tensor whose length differs from the batch size of
`x0` makes `sample_location_and_conditional_flow` fail with the assertion
error, producing no `xt` or `ut`; with matching length the call never fails
on this check and returns the triple `(t, xt, ut)`. -/
theorem sample_location_assert_spec (σ : ℚ) (plan0 plan1 : ℕ → ℕ)
    (x0 x1 : Mat) (t : List ℚ) (t_rand : List ℚ) (eps : Mat) :
    (t.length ≠ x0.length →
      FM.sample_location_and_conditional_flow σ plan0 plan1 x0 x1 (some t)
          t_rand eps
        = Except.error "AssertionError: t has to have batch size dimension") ∧
    (t.length = x0.length →
      ∃ xt ut,
        FM.sample_location_and_conditional_flow σ plan0 plan1 x0 x1 (some t)
            t_rand eps
          = Except.ok (t, xt, ut)) := by
  constructor
  · intro hne
    simp only [FM.sample_location_and_conditional_flow, sample_plan,
      List.length_map, List.length_range]
    rw [if_neg hne]
  · intro heq
    refine ⟨FM.sample_xt σ (sample_plan plan0 plan1 x0 x1).1
        (sample_plan plan0 plan1 x0 x1).2 t eps,
      FM.compute_conditional_flow (sample_plan plan0 plan1 x0 x1).1
        (sample_plan plan0 plan1 x0 x1).2 t
        (FM.sample_xt σ (sample_plan plan0 plan1 x0 x1).1
          (sample_plan plan0 plan1 x0 x1).2 t eps), ?_⟩
    simp only [FM.sample_location_and_conditional_flow]
    rw [if_pos (by simpa [sample_plan] using heq)]

/-- Witness for C9: on a batch of two cells, a length-1 time tensor trips the
assertion and a length-2 one passes. -/
theorem sample_location_assert_spec_witness :
    (FM.sample_location_and_conditional_flow (1/10) id id [[0], [1]] [[1], [2]]
        (some [1/2]) [] [[0], [0]]
      = Except.error "AssertionError: t has to have batch size dimension") ∧
    ∃ xt ut,
      FM.sample_location_and_conditional_flow (1/10) id id [[0], [1]] [[1], [2]]
          (some [1/2, 1/2]) [] [[0], [0]]
        = Except.ok ([1/2, 1/2], xt, ut) :=
  ⟨(sample_location_assert_spec (1/10) id id [[0], [1]] [[1], [2]] [1/2] []
      [[0], [0]]).1 (by decide),
   (sample_location_assert_spec (1/10) id id [[0], [1]] [[1], [2]] [1/2, 1/2] []
      [[0], [0]]).2 (by decide)⟩

theorem step_freeze_frozen (pretrain_encoder : Bool) (encoder_type : EncoderType)
    (T e : ℕ) (lr wd : ℚ) (s : TrainState)
    (h : FM.FrozenState encoder_type lr wd s) :
    FM.FrozenState encoder_type lr wd
      (FM.step_freeze pretrain_encoder encoder_type T e lr wd s) := by
  rw [FM.step_freeze]
  split
  · refine ⟨?_, ?_, rfl, rfl⟩
    · intro p hp
      obtain ⟨a, _, hfa⟩ := List.mem_map.mp hp
      exact hfa.symm
    · intro hauto
      simp only [if_pos hauto]
      intro p hp
      obtain ⟨a, _, hfa⟩ := List.mem_map.mp hp
      exact hfa.symm
  · exact h

theorem run_steps_frozen (pretrain_encoder : Bool) (encoder_type : EncoderType)
    (T : ℕ) (lr wd : ℚ) :
    ∀ (es : List ℕ) (s : TrainState), FM.FrozenState encoder_type lr wd s →
      FM.FrozenState encoder_type lr wd
        (FM.run_steps pretrain_encoder encoder_type T lr wd es s) := by
  intro es
  induction es with
  | nil => intro s h; exact h
  | cons e es ih =>
    intro s h
    exact ih _ (step_freeze_frozen pretrain_encoder encoder_type T e lr wd s h)

theorem step_at_threshold_frozen (encoder_type : EncoderType) (T : ℕ)
    (lr wd : ℚ)
    (hlearnt : encoder_type = .learnt_encoder ∨
      encoder_type = .learnt_autoencoder) (s : TrainState) :
    FM.FrozenState encoder_type lr wd
      (FM.step_freeze true encoder_type T T lr wd s) := by
  rw [FM.step_freeze, if_pos ⟨rfl, rfl, hlearnt⟩]
  refine ⟨?_, ?_, rfl, rfl⟩
  · intro p hp
    obtain ⟨a, _, hfa⟩ := List.mem_map.mp hp
    exact hfa.symm
  · intro hauto
    simp only [if_pos hauto]
    intro p hp
    obtain ⟨a, _, hfa⟩ := List.mem_map.mp hp
    exact hfa.symm

theorem run_steps_threshold (encoder_type : EncoderType) (T : ℕ) (lr wd : ℚ)
    (hlearnt : encoder_type = .learnt_encoder ∨
      encoder_type = .learnt_autoencoder) :
    ∀ es : List ℕ, T ∈ es → ∀ s : TrainState,
      FM.FrozenState encoder_type lr wd
        (FM.run_steps true encoder_type T lr wd es s) := by
  intro es
  induction es with
  | nil => intro h; cases h
  | cons e es ih =>
    intro hmem s
    rcases List.mem_cons.mp hmem with he | hm
    · subst he
      exact run_steps_frozen true encoder_type T lr wd es _
        (step_at_threshold_frozen encoder_type T lr wd hlearnt s)
    · exact ih hm _

/-- C6: viewed as a state machine over the pretraining and joint phases: with
pretraining enabled, once the sequence of `_step` calls includes the
threshold epoch `pretraining_encoder_epochs`, the final state starting from
the freshly configured optimizer has `requires_grad = False` on every
encoder parameter (and on every decoder parameter for the
`learnt_autoencoder` variant) and the optimizer back at the configured
learning rate and weight decay; steps at any other epoch leave the state
untouched (the transition fires only at the threshold), and no later step
re-enables the gradients or reverts the optimizer state. -/
theorem pretraining_transition_spec (encoder_type : EncoderType)
    (n_enc n_dec T : ℕ) (lr wd : ℚ) (es : List ℕ) (hT : T ∈ es) :
    FM.FrozenState encoder_type lr wd
      (FM.run_steps true encoder_type T lr wd es
        (FM.init_state encoder_type n_enc n_dec lr wd)) ∧
    (∀ (e : ℕ) (s : TrainState), e ≠ T →
      FM.step_freeze true encoder_type T e lr wd s = s) ∧
    (∀ (e : ℕ) (s : TrainState), FM.FrozenState encoder_type lr wd s →
      FM.FrozenState encoder_type lr wd
        (FM.step_freeze true encoder_type T e lr wd s)) := by
  refine ⟨?_, ?_,
    fun e s h => step_freeze_frozen true encoder_type T e lr wd s h⟩
  · by_cases hlearnt : encoder_type = .learnt_encoder ∨
        encoder_type = .learnt_autoencoder
    · exact run_steps_threshold encoder_type T lr wd hlearnt es hT _
    · have hfix : ∀ (es' : List ℕ) (s : TrainState),
          FM.run_steps true encoder_type T lr wd es' s = s := by
        intro es'
        induction es' with
        | nil => intro s; rfl
        | cons e es' ih =>
          intro s
          have hstep : FM.step_freeze true encoder_type T e lr wd s = s := by
            rw [FM.step_freeze, if_neg]
            rintro ⟨-, -, hl⟩
            exact hlearnt hl
          calc FM.run_steps true encoder_type T lr wd (e :: es') s
              = FM.run_steps true encoder_type T lr wd es'
                  (FM.step_freeze true encoder_type T e lr wd s) := rfl
            _ = s := by rw [hstep]; exact ih s
      rw [hfix]
      refine ⟨?_, ?_, ?_, ?_⟩
      · intro p hp
        rw [FM.init_state] at hp
        simp only [if_neg hlearnt] at hp
        cases hp
      · intro hauto
        exact absurd (Or.inr hauto) hlearnt
      · simp [FM.init_state, FM.configure_optimizers, if_neg hlearnt]
      · simp [FM.init_state, FM.configure_optimizers, if_neg hlearnt]
  · intro e s hne
    rw [FM.step_freeze, if_neg]
    rintro ⟨h1, -, -⟩
    exact hne h1

/-- Witness for C6: autoencoder variant, two encoder and three decoder
parameters, threshold epoch 2 inside the epoch sequence. -/
theorem pretraining_transition_spec_witness :
    (2 ∈ [0, 1, 2, 3]) ∧
    (FM.FrozenState .learnt_autoencoder (1/100) (1/1000)
      (FM.run_steps true .learnt_autoencoder 2 (1/100) (1/1000) [0, 1, 2, 3]
        (FM.init_state .learnt_autoencoder 2 3 (1/100) (1/1000))) ∧
    (∀ (e : ℕ) (s : TrainState), e ≠ 2 →
      FM.step_freeze true .learnt_autoencoder 2 e (1/100) (1/1000) s = s) ∧
    (∀ (e : ℕ) (s : TrainState),
      FM.FrozenState .learnt_autoencoder (1/100) (1/1000) s →
      FM.FrozenState .learnt_autoencoder (1/100) (1/1000)
        (FM.step_freeze true .learnt_autoencoder 2 e (1/100) (1/1000) s))) :=
  ⟨by decide,
   pretraining_transition_spec .learnt_autoencoder 2 3 2 (1/100) (1/1000)
     [0, 1, 2, 3] (by decide)⟩

end CFGen

namespace CFGen

/-! Helper lemmas about the tensor model. -/

theorem getD_eq_getElem' {α : Type} (l : List α) (d : α) {i : ℕ} (h : i < l.length) :
    l.getD i d = l[i] := by
  simp [List.getD_eq_getElem?_getD, List.getElem?_eq_getElem h]

theorem sameShape_length {a b : Mat} (h : sameShape a b) : a.length = b.length := by
  have := congrArg List.length h
  simpa [shape] using this

theorem sameShape_row {a b : Mat} (h : sameShape a b) (i : ℕ) (hi : i < a.length) :
    (row a i).length = (row b i).length := by
  have hb : i < b.length := (sameShape_length h) ▸ hi
  have h1 : (a.map List.length)[i]? = (b.map List.length)[i]? := by
    simp only [sameShape, shape] at h
    rw [h]
  rw [List.getElem?_map, List.getElem?_map, List.getElem?_eq_getElem hi,
    List.getElem?_eq_getElem hb] at h1
  simp at h1
  rw [row, row, getD_eq_getElem' _ _ hi, getD_eq_getElem' _ _ hb]
  exact h1

theorem row_zipWith2d (f : ℚ → ℚ → ℚ) (a b : Mat) (i : ℕ)
    (hi : i < a.length) (hib : i < b.length) :
    row (zipWith2d f a b) i = List.zipWith f (row a i) (row b i) := by
  have hlen : i < (zipWith2d f a b).length := by
    simp [zipWith2d, List.length_zipWith]
    omega
  rw [row, row, row, getD_eq_getElem' _ _ hlen, getD_eq_getElem' _ _ hi,
    getD_eq_getElem' _ _ hib]
  exact List.getElem_zipWith

theorem row_scaleRows (t : List ℚ) (x : Mat) (i : ℕ)
    (hit : i < t.length) (hix : i < x.length) :
    row (scaleRows t x) i = (row x i).map (fun v => t.getD i 0 * v) := by
  have hlen : i < (scaleRows t x).length := by
    simp [scaleRows, List.length_zipWith]
    omega
  rw [row, row, getD_eq_getElem' _ _ hlen, getD_eq_getElem' _ _ hix,
    getD_eq_getElem' _ _ hit]
  exact List.getElem_zipWith

theorem getD_map_zero (f : ℚ → ℚ) (l : List ℚ) (j : ℕ) (hj : j < l.length) :
    (l.map f).getD j 0 = f (l.getD j 0) := by
  have hj' : j < (l.map f).length := by simpa using hj
  rw [getD_eq_getElem' _ _ hj', getD_eq_getElem' _ _ hj, List.getElem_map]

theorem getD_zipWith_zero (f : ℚ → ℚ → ℚ) (r s : List ℚ) (j : ℕ)
    (hjr : j < r.length) (hjs : j < s.length) :
    (List.zipWith f r s).getD j 0 = f (r.getD j 0) (s.getD j 0) := by
  have hj : j < (List.zipWith f r s).length := by
    simp [List.length_zipWith]
    omega
  rw [getD_eq_getElem' _ _ hj, getD_eq_getElem' _ _ hjr, getD_eq_getElem' _ _ hjs]
  exact List.getElem_zipWith

theorem length_compute_mu_t (x0 x1 : Mat) (t : List ℚ)
    (hs : sameShape x0 x1) (ht : t.length = x0.length) :
    (FM.compute_mu_t x0 x1 t).length = x0.length := by
  have h1 := sameShape_length hs
  simp [FM.compute_mu_t, zipWith2d, scaleRows, List.length_zipWith, ht, h1]

theorem row_compute_mu_t (x0 x1 : Mat) (t : List ℚ)
    (hs : sameShape x0 x1) (ht : t.length = x0.length) (i : ℕ) (hi : i < x0.length) :
    row (FM.compute_mu_t x0 x1 t) i =
      List.zipWith (· + ·) ((row x1 i).map (fun v => t.getD i 0 * v))
        ((row x0 i).map (fun v => (1 - t.getD i 0) * v)) := by
  have hi1 : i < x1.length := (sameShape_length hs) ▸ hi
  have hit : i < t.length := ht ▸ hi
  have hit' : i < (t.map (fun ti => 1 - ti)).length := by simpa using hit
  have hl1 : i < (scaleRows t x1).length := by
    simp [scaleRows, List.length_zipWith]; omega
  have hl0 : i < (scaleRows (t.map (fun ti => 1 - ti)) x0).length := by
    simp [scaleRows, List.length_zipWith]; omega
  rw [FM.compute_mu_t, row_zipWith2d _ _ _ _ hl1 hl0,
    row_scaleRows _ _ _ hit hi1, row_scaleRows _ _ _ hit' hi,
    getD_map_zero _ _ _ hit]

theorem shape_compute_mu_t (x0 x1 : Mat) (t : List ℚ)
    (hs : sameShape x0 x1) (ht : t.length = x0.length) :
    sameShape (FM.compute_mu_t x0 x1 t) x0 := by
  have hlen := length_compute_mu_t x0 x1 t hs ht
  apply List.ext_getElem
  · simp [shape, hlen]
  · intro i h1 h2
    simp only [shape, List.getElem_map]
    have hi : i < x0.length := by simpa [shape] using h2
    have hmu : i < (FM.compute_mu_t x0 x1 t).length := hlen ▸ hi
    have e1 : (FM.compute_mu_t x0 x1 t)[i] = row (FM.compute_mu_t x0 x1 t) i :=
      (getD_eq_getElem' _ _ hmu).symm
    have e0 : x0[i] = row x0 i := (getD_eq_getElem' _ _ hi).symm
    rw [e1, e0, row_compute_mu_t x0 x1 t hs ht i hi]
    simp [List.length_zipWith, sameShape_row hs i hi]

theorem zipWith_sigma_zero (σ : ℚ) : ∀ r s : List ℚ, s.length = r.length →
    List.zipWith (fun m e => m + σ * e) r (s.map (fun _ => 0)) = r := by
  intro r
  induction r with
  | nil => intro s hs; simp
  | cons a r ih =>
    intro s hs
    cases s with
    | nil => simp at hs
    | cons b s =>
      simp only [List.map_cons, List.zipWith_cons_cons, mul_zero, add_zero]
      rw [ih s (by simpa using hs)]

theorem sample_xt_zero_noise (σ : ℚ) (x0 x1 : Mat) (t : List ℚ)
    (hs : sameShape x0 x1) (ht : t.length = x0.length) :
    FM.sample_xt σ x0 x1 t (zerosLike x0) = FM.compute_mu_t x0 x1 t := by
  have hmu := length_compute_mu_t x0 x1 t hs ht
  have hsh := shape_compute_mu_t x0 x1 t hs ht
  apply List.ext_getElem
  · simp [FM.sample_xt, zipWith2d, List.length_zipWith, zerosLike, hmu]
  · intro i h1 h2
    have hi : i < x0.length := hmu ▸ h2
    simp only [FM.sample_xt, FM.compute_sigma_t, zipWith2d, List.getElem_zipWith,
      zerosLike, List.getElem_map]
    have hil : i < (FM.compute_mu_t x0 x1 t).length := hmu ▸ hi
    have hr := sameShape_row hsh i hil
    rw [row, row, getD_eq_getElem' _ _ hil, getD_eq_getElem' _ _ hi] at hr
    exact zipWith_sigma_zero σ _ _ hr.symm

/-- C1: `FM.compute_conditional_flow(x0, x1, t, xt)` returns exactly `x1 - x0`
entrywise for equally shaped batches; the result depends only on the endpoints
and is unchanged when `t` or `xt` (equivalently the injected noise) vary while
the endpoints are fixed. -/
theorem compute_conditional_flow_spec (x0 x1 : Mat) (t : List ℚ) (xt : Mat)
    (hs : sameShape x0 x1) :
    (∀ i j, i < x0.length → j < (row x0 i).length →
       entry (FM.compute_conditional_flow x0 x1 t xt) i j
         = entry x1 i j - entry x0 i j) ∧
    (∀ t' xt', FM.compute_conditional_flow x0 x1 t' xt' =
       FM.compute_conditional_flow x0 x1 t xt) := by
  constructor
  · intro i j hi hj
    have hi1 : i < x1.length := (sameShape_length hs) ▸ hi
    have hj1 : j < (row x1 i).length := (sameShape_row hs i hi) ▸ hj
    simp only [entry, FM.compute_conditional_flow]
    rw [row_zipWith2d _ _ _ _ hi1 hi, getD_zipWith_zero _ _ _ _ hj1 hj]
  · intro t' xt'
    rfl

/-- Witness for C1 at a concrete input. -/
theorem compute_conditional_flow_spec_witness :
    sameShape [[(1 : ℚ), 2]] [[4, 6]] ∧
    entry (FM.compute_conditional_flow [[(1 : ℚ), 2]] [[4, 6]] [1/2] [[0, 0]]) 0 0
      = entry [[(4 : ℚ), 6]] 0 0 - entry [[(1 : ℚ), 2]] 0 0 :=
  ⟨rfl, (compute_conditional_flow_spec [[(1 : ℚ), 2]] [[4, 6]] [1/2] [[0, 0]]
    rfl).1 0 0 (by decide) (by decide)⟩

/-- C2: `FM.compute_mu_t(x0, x1, t)` returns `t*x1 + (1-t)*x0` with `t`
broadcast (padded) across all trailing dimensions of `x`: row `i` of the
result combines the rows of `x1` and `x0` with the per-sample time `t i`, and
the result has the same shape as `x0` and `x1` (batch dimension aligned). -/
theorem compute_mu_t_spec (x0 x1 : Mat) (t : List ℚ)
    (hs : sameShape x0 x1) (ht : t.length = x0.length) :
    sameShape (FM.compute_mu_t x0 x1 t) x0 ∧
    ∀ i j, i < x0.length → j < (row x0 i).length →
      entry (FM.compute_mu_t x0 x1 t) i j
        = t.getD i 0 * entry x1 i j + (1 - t.getD i 0) * entry x0 i j := by
  refine ⟨shape_compute_mu_t x0 x1 t hs ht, ?_⟩
  intro i j hi hj
  have hj1 : j < (row x1 i).length := (sameShape_row hs i hi) ▸ hj
  simp only [entry]
  rw [row_compute_mu_t x0 x1 t hs ht i hi,
    getD_zipWith_zero _ _ _ _ (by simpa using hj1) (by simpa using hj),
    getD_map_zero _ _ _ hj1, getD_map_zero _ _ _ hj]

/-- Witness for C2 at a concrete input. -/
theorem compute_mu_t_spec_witness :
    sameShape [[(1 : ℚ), 2]] [[5, 10]] ∧ ([(1 : ℚ)/4] : List ℚ).length = 1 ∧
    entry (FM.compute_mu_t [[(1 : ℚ), 2]] [[5, 10]] [1/4]) 0 1
      = (1/4 : ℚ) * entry [[(5 : ℚ), 10]] 0 1
        + (1 - (1/4 : ℚ)) * entry [[(1 : ℚ), 2]] 0 1 :=
  ⟨rfl, rfl, (compute_mu_t_spec [[(1 : ℚ), 2]] [[5, 10]] [1/4]
    rfl rfl).2 0 1 (by decide) (by decide)⟩

/-- C3: `FM.sample_xt(x0, x1, t, epsilon)` equals `compute_mu_t(x0, x1, t) +
sigma * epsilon` entrywise, where the path standard deviation
`compute_sigma_t` is the constant configured `σ` independent of `t`; in
particular with all-zero noise, `sample_xt` coincides with `compute_mu_t` for
every `t` with entries in `[0, 1]`. -/
theorem sample_xt_spec (σ : ℚ) (x0 x1 : Mat) (t : List ℚ) (epsilon : Mat)
    (hs : sameShape x0 x1) (ht : t.length = x0.length) (he : sameShape x0 epsilon) :
    (∀ t', FM.compute_sigma_t σ t' = σ) ∧
    (∀ i j, i < x0.length → j < (row x0 i).length →
       entry (FM.sample_xt σ x0 x1 t epsilon) i j
         = entry (FM.compute_mu_t x0 x1 t) i j + σ * entry epsilon i j) ∧
    ((∀ r ∈ t, 0 ≤ r ∧ r ≤ 1) →
       FM.sample_xt σ x0 x1 t (zerosLike x0) = FM.compute_mu_t x0 x1 t) := by
  refine ⟨fun t' => rfl, ?_, fun _ => sample_xt_zero_noise σ x0 x1 t hs ht⟩
  intro i j hi hj
  have hmu := length_compute_mu_t x0 x1 t hs ht
  have hsh := shape_compute_mu_t x0 x1 t hs ht
  have hie : i < epsilon.length := (sameShape_length he) ▸ hi
  have hil : i < (FM.compute_mu_t x0 x1 t).length := hmu ▸ hi
  have hje : j < (row epsilon i).length := (sameShape_row he i hi) ▸ hj
  have hjl : j < (row (FM.compute_mu_t x0 x1 t) i).length :=
    (sameShape_row hsh i hil).symm ▸ hj
  simp only [entry, FM.sample_xt, FM.compute_sigma_t]
  rw [row_zipWith2d _ _ _ _ hil hie, getD_zipWith_zero _ _ _ _ hjl hje]

theorem getD_map_range (f : ℕ → ℚ) (B k : ℕ) (hk : k < B) :
    ((List.range B).map f).getD k 0 = f k := by
  have hk' : k < ((List.range B).map f).length := by simpa using hk
  rw [getD_eq_getElem' _ _ hk', List.getElem_map, List.getElem_range]

/-- C4: when antithetic time sampling is enabled and the offset draw satisfies
`0 ≤ t0 < 1/B`, `FM._sample_times` returns exactly the `B` times
`t0, t0 + 1/B, ..., t0 + (B-1)/B`: they are strictly increasing, all lie in
`[0, 1)`, and consecutive times differ by exactly `1/B`.  When disabled, it
returns the `B` i.i.d. uniform draws `rand` unchanged. -/
theorem _sample_times_spec (B : ℕ) (t0 : ℚ) (rand : List ℚ)
    (hB : 1 ≤ B) (h0 : 0 ≤ t0) (h1 : t0 < 1 / (B : ℚ)) :
    FM._sample_times true B t0 rand
      = (List.range B).map (fun k : ℕ => t0 + (k : ℚ) / B) ∧
    (FM._sample_times true B t0 rand).length = B ∧
    List.Pairwise (· < ·) (FM._sample_times true B t0 rand) ∧
    (∀ x ∈ FM._sample_times true B t0 rand, 0 ≤ x ∧ x < 1) ∧
    (∀ k, k + 1 < B →
       (FM._sample_times true B t0 rand).getD (k + 1) 0
         - (FM._sample_times true B t0 rand).getD k 0 = 1 / B) ∧
    FM._sample_times false B t0 rand = rand := by
  have hBpos : (0 : ℚ) < B := by
    have h : (1 : ℚ) ≤ (B : ℚ) := by exact_mod_cast hB
    linarith
  have h2 : t0 * B < 1 := (lt_div_iff₀ hBpos).mp h1
  have hform : FM._sample_times true B t0 rand
      = (List.range B).map (fun k : ℕ => t0 + (k : ℚ) / B) := by
    show torch_arange t0 1 (1 / (B : ℚ)) = _
    rw [torch_arange]
    have h3 : (1 - t0) / (1 / (B : ℚ)) = (1 - t0) * B := by
      have hne : (B : ℚ) ≠ 0 := hBpos.ne'
      field_simp
    have h4 : ⌈(1 - t0) * (B : ℚ)⌉ = (B : ℤ) := by
      rw [Int.ceil_eq_iff]
      constructor
      · push_cast
        nlinarith
      · push_cast
        nlinarith
    rw [h3, h4, Int.toNat_natCast]
    apply List.map_congr_left
    intro k _
    rw [mul_one_div]
  refine ⟨hform, ?_, ?_, ?_, ?_, rfl⟩
  · rw [hform]
    simp
  · rw [hform, List.pairwise_map]
    apply (List.pairwise_lt_range B).imp
    intro a b hab
    have hc : (a : ℚ) < (b : ℚ) := by exact_mod_cast hab
    exact add_lt_add_left ((div_lt_div_iff_of_pos_right hBpos).mpr hc) t0
  · rw [hform]
    intro x hx
    obtain ⟨k, hk, rfl⟩ := List.mem_map.mp hx
    have hkB : k < B := List.mem_range.mp hk
    constructor
    · exact add_nonneg h0 (div_nonneg (Nat.cast_nonneg k) hBpos.le)
    · have hk1 : (k : ℚ) + 1 ≤ B := by exact_mod_cast hkB
      have he : t0 + (k : ℚ) / B = (t0 * B + k) / B := by
        field_simp
      rw [he, div_lt_one hBpos]
      linarith
  · intro k hk
    rw [hform, getD_map_range _ _ _ hk, getD_map_range _ _ _ (by omega)]
    have hne : (B : ℚ) ≠ 0 := hBpos.ne'
    push_cast
    field_simp

/-- Witness for C4 at batch size 4 and offset 1/8. -/
theorem _sample_times_spec_witness :
    (1 ≤ 4 ∧ (0 : ℚ) ≤ 1/8 ∧ (1/8 : ℚ) < 1 / ((4 : ℕ) : ℚ)) ∧
    FM._sample_times true 4 (1/8) [0, 0, 0, 0] = [1/8, 3/8, 5/8, 7/8] :=
  ⟨⟨by decide, by norm_num, by norm_num⟩,
   ((_sample_times_spec 4 (1/8) [0, 0, 0, 0] (by decide) (by norm_num)
     (by norm_num)).1).trans (by norm_num [List.range_succ])⟩

/-- Witness for C3 at a concrete input. -/
theorem sample_xt_spec_witness :
    sameShape [[(1 : ℚ), 2]] [[5, 10]] ∧ sameShape [[(1 : ℚ), 2]] [[2, 4]] ∧
    entry (FM.sample_xt (1/10) [[(1 : ℚ), 2]] [[5, 10]] [1/4] [[2, 4]]) 0 0
      = entry (FM.compute_mu_t [[(1 : ℚ), 2]] [[5, 10]] [1/4]) 0 0
        + (1/10 : ℚ) * entry [[(2 : ℚ), 4]] 0 0 :=
  ⟨rfl, rfl, (sample_xt_spec (1/10) [[(1 : ℚ), 2]] [[5, 10]] [1/4] [[2, 4]]
    rfl rfl rfl).2.1 0 0 (by decide) (by decide)⟩


/-- C10: after `RNAseqLoader` construction, `id2cov` maps the distinct
covariate values bijectively onto `0..n-1` with indices assigned in sorted
order — concretely, the sorted unique values map to exactly
`[0, 1, ..., n-1]` — every entry of the per-cell index tensor `Y_cov` lies
in `[0, n)`, and every item returned by `__getitem__` carries an in-range
category index. -/
theorem id2cov_bijection {α : Type} [LinearOrder α] [DecidableEq α] (l : List α) :
    ((np_unique l).map (RNAseqLoader.id2cov l)
       = List.range (np_unique l).length) ∧
    List.Sorted (· < ·) (np_unique l) ∧
    (∀ c ∈ l, RNAseqLoader.id2cov l c < (np_unique l).length) ∧
    (∀ y ∈ RNAseqLoader.Y_cov l, y < (np_unique l).length) ∧
    (∀ i, i < l.length →
      RNAseqLoader.getitem_y l i < (np_unique l).length) := by
  have hnodup : (np_unique l).Nodup := Finset.sort_nodup _ _
  have hmem : ∀ c ∈ l, c ∈ np_unique l := by
    intro c hc
    simp [np_unique, Finset.mem_sort, List.mem_toFinset, hc]
  have hidx : ∀ c ∈ l, RNAseqLoader.id2cov l c < (np_unique l).length := by
    intro c hc
    exact List.indexOf_lt_length.mpr (hmem c hc)
  refine ⟨?_, Finset.sort_sorted_lt _, hidx, ?_, ?_⟩
  · apply List.ext_getElem
    · simp
    · intro i h1 h2
      have hi : i < (np_unique l).length := by simpa using h1
      rw [List.getElem_map, List.getElem_range]
      simp only [RNAseqLoader.id2cov]
      exact List.indexOf_getElem hnodup i hi
  · intro y hy
    obtain ⟨c, hc, rfl⟩ := List.mem_map.mp hy
    exact hidx c hc
  · intro i hi
    have hi' : i < (RNAseqLoader.Y_cov l).length := by
      simpa [RNAseqLoader.Y_cov] using hi
    rw [RNAseqLoader.getitem_y, getD_eq_getElem' _ _ hi']
    simp only [RNAseqLoader.Y_cov, List.getElem_map]
    exact hidx _ (List.getElem_mem (by simpa [RNAseqLoader.Y_cov] using hi'))

/-- Witness for C10 on a concrete covariate column with duplicated values. -/
theorem id2cov_bijection_witness :
    ((np_unique ([5, 3, 5, 1] : List ℕ)).map
        (RNAseqLoader.id2cov ([5, 3, 5, 1] : List ℕ))
       = List.range (np_unique ([5, 3, 5, 1] : List ℕ)).length) ∧
    List.Sorted (· < ·) (np_unique ([5, 3, 5, 1] : List ℕ)) ∧
    (∀ c ∈ ([5, 3, 5, 1] : List ℕ),
      RNAseqLoader.id2cov ([5, 3, 5, 1] : List ℕ) c
        < (np_unique ([5, 3, 5, 1] : List ℕ)).length) ∧
    (∀ y ∈ RNAseqLoader.Y_cov ([5, 3, 5, 1] : List ℕ),
      y < (np_unique ([5, 3, 5, 1] : List ℕ)).length) ∧
    (∀ i, i < ([5, 3, 5, 1] : List ℕ).length →
      RNAseqLoader.getitem_y ([5, 3, 5, 1] : List ℕ) i
        < (np_unique ([5, 3, 5, 1] : List ℕ)).length) :=
  id2cov_bijection ([5, 3, 5, 1] : List ℕ)

theorem sum_map_mul_const (l : List ℝ) (f : ℝ → ℝ) (c : ℝ) :
    (l.map (fun v => f v * c)).sum = (l.map f).sum * c := by
  induction l with
  | nil => simp
  | cons a l ih => simp [ih, add_mul]

theorem sum_map_const {β : Type} (l : List β) (c : ℝ) :
    (l.map (fun _ => c)).sum = l.length * c := by
  induction l with
  | nil => simp
  | cons a l ih =>
    simp only [List.map_cons, List.sum_cons, ih, List.length_cons]
    push_cast
    ring

theorem softmax_rescale_row (r : List ℝ) (sf : ℝ) (hr : r ≠ []) (hsf : 0 < sf) :
    (∀ v ∈ (softmaxRow r).map (fun v => v * sf), 0 ≤ v) ∧
    ((softmaxRow r).map (fun v => v * sf)).sum = sf := by
  have hS : 0 < (r.map Real.exp).sum := by
    cases r with
    | nil => exact absurd rfl hr
    | cons a r =>
      simp only [List.map_cons, List.sum_cons]
      have h1 : 0 < Real.exp a := Real.exp_pos a
      have h2 : 0 ≤ (r.map Real.exp).sum := by
        apply List.sum_nonneg
        intro x hx
        obtain ⟨y, -, rfl⟩ := List.mem_map.mp hx
        exact (Real.exp_pos y).le
      linarith
  constructor
  · intro v hv
    obtain ⟨w, hw, rfl⟩ := List.mem_map.mp hv
    obtain ⟨u, -, rfl⟩ := List.mem_map.mp hw
    exact mul_nonneg (div_nonneg (Real.exp_pos u).le hS.le) hsf.le
  · rw [softmaxRow, List.map_map]
    have hfun : ((fun v => v * sf) ∘ fun v => Real.exp v / (r.map Real.exp).sum)
        = fun v => Real.exp v * (sf / (r.map Real.exp).sum) := by
      funext v
      simp only [Function.comp]
      rw [div_mul_eq_mul_div, mul_div_assoc]
    rw [hfun]
    have := sum_map_mul_const r Real.exp (sf / (r.map Real.exp).sum)
    rw [this]
    field_simp

theorem cell_decoder_row (r : List ℝ) (sf : ℝ) (hr : r ≠ []) (hsf : 0 < sf) :
    (∀ v ∈ cell_decoder r sf, 0 ≤ v) ∧ (cell_decoder r sf).sum = sf := by
  rw [cell_decoder]
  have hwnn : ∀ u ∈ r.map (fun v => max v 0), 0 ≤ u := by
    intro u hu
    obtain ⟨y, -, rfl⟩ := List.mem_map.mp hu
    exact le_max_right y 0
  by_cases h0 : (r.map (fun v => max v 0)).sum = 0
  · rw [if_pos h0]
    have hn : 0 < (r.length : ℝ) := by
      have h := List.length_pos.mpr hr
      exact_mod_cast h
    constructor
    · intro v hv
      obtain ⟨u, -, rfl⟩ := List.mem_map.mp hv
      exact div_nonneg hsf.le hn.le
    · rw [sum_map_const]
      field_simp
  · rw [if_neg h0]
    have hSpos : 0 < (r.map (fun v => max v 0)).sum :=
      lt_of_le_of_ne (List.sum_nonneg hwnn) (Ne.symm h0)
    constructor
    · intro v hv
      obtain ⟨u, hu, rfl⟩ := List.mem_map.mp hv
      exact mul_nonneg (div_nonneg (hwnn u hu) hSpos.le) hsf.le
    · have hfun : (fun v => v / (r.map (fun v => max v 0)).sum * sf)
          = fun v => v * (sf / (r.map (fun v => max v 0)).sum) := by
        funext v
        rw [div_mul_eq_mul_div, mul_div_assoc]
      rw [hfun]
      have h1 : ((r.map (fun v => max v 0)).map
            (fun v => v * (sf / (r.map (fun v => max v 0)).sum))).sum
          = ((r.map (fun v => max v 0)).map id).sum
              * (sf / (r.map (fun v => max v 0)).sum) := by
        exact sum_map_mul_const _ id _
      rw [h1, List.map_id]
      field_simp

/-- C7: for every latent batch `z` (one nonempty row per cell) and strictly
positive per-cell size factors, and for each of the three encoder variants,
`_decode(z, size_factor)` returns a matrix with every entry non-negative and
every row summing to that cell's size factor. -/
theorem _decode_spec (encoder_type : EncoderType)
    (scaler_unscale x_from_x0 : List ℝ → List ℝ) (z : MatR) (size_factor : List ℝ)
    (hlen : z.length = size_factor.length)
    (hpos : ∀ s ∈ size_factor, 0 < s)
    (hrows : ∀ r ∈ z, r ≠ [])
    (hsc : ∀ r, r ≠ [] → scaler_unscale r ≠ [])
    (hmlp : ∀ r, r ≠ [] → x_from_x0 r ≠ []) :
    (FM._decode encoder_type scaler_unscale x_from_x0 z size_factor).length
        = z.length ∧
    ∀ i, i < z.length →
      (∀ v ∈ (FM._decode encoder_type scaler_unscale x_from_x0 z
          size_factor).getD i [], 0 ≤ v) ∧
      ((FM._decode encoder_type scaler_unscale x_from_x0 z
          size_factor).getD i []).sum = size_factor.getD i 0 := by
  cases encoder_type with
  | fixed =>
    have hd : FM._decode .fixed scaler_unscale x_from_x0 z size_factor
        = List.zipWith (fun r sf => cell_decoder (scaler_unscale r) sf)
            z size_factor := by
      rw [FM._decode, if_pos (by decide)]
    rw [hd]
    refine ⟨by rw [List.length_zipWith]; omega, ?_⟩
    intro i hi
    have hisf : i < size_factor.length := by omega
    have hiz : i < (List.zipWith
        (fun r sf => cell_decoder (scaler_unscale r) sf) z size_factor).length := by
      rw [List.length_zipWith]; omega
    rw [getD_eq_getElem' _ _ hiz, List.getElem_zipWith, getD_eq_getElem' _ _ hisf]
    exact cell_decoder_row _ _ (hsc _ (hrows _ (List.getElem_mem hi)))
      (hpos _ (List.getElem_mem hisf))
  | learnt_encoder =>
    have hd : FM._decode .learnt_encoder scaler_unscale x_from_x0 z size_factor
        = List.zipWith (fun r sf => (softmaxRow r).map (fun v => v * sf))
            z size_factor := by
      rw [FM._decode, if_neg (by decide)]
      simp
    rw [hd]
    refine ⟨by rw [List.length_zipWith]; omega, ?_⟩
    intro i hi
    have hisf : i < size_factor.length := by omega
    have hiz : i < (List.zipWith
        (fun r sf => (softmaxRow r).map (fun v => v * sf)) z size_factor).length := by
      rw [List.length_zipWith]; omega
    rw [getD_eq_getElem' _ _ hiz, List.getElem_zipWith, getD_eq_getElem' _ _ hisf]
    exact softmax_rescale_row _ _ (hrows _ (List.getElem_mem hi))
      (hpos _ (List.getElem_mem hisf))
  | learnt_autoencoder =>
    have hd : FM._decode .learnt_autoencoder scaler_unscale x_from_x0 z size_factor
        = List.zipWith (fun r sf => (softmaxRow r).map (fun v => v * sf))
            (z.map x_from_x0) size_factor := by
      rw [FM._decode, if_neg (by decide)]
      simp
    rw [hd]
    refine ⟨by rw [List.length_zipWith, List.length_map]; omega, ?_⟩
    intro i hi
    have hisf : i < size_factor.length := by omega
    have him : i < (z.map x_from_x0).length := by
      rw [List.length_map]; omega
    have hiz : i < (List.zipWith
        (fun r sf => (softmaxRow r).map (fun v => v * sf))
        (z.map x_from_x0) size_factor).length := by
      rw [List.length_zipWith, List.length_map]; omega
    rw [getD_eq_getElem' _ _ hiz, List.getElem_zipWith, getD_eq_getElem' _ _ hisf]
    have hmm : (z.map x_from_x0)[i] = x_from_x0 z[i] := List.getElem_map _
    rw [hmm]
    exact softmax_rescale_row _ _ (hmlp _ (hrows _ (List.getElem_mem hi)))
      (hpos _ (List.getElem_mem hisf))

/-- Witness for C7: learnt-encoder variant on a single cell with one gene and
size factor 1. -/
theorem _decode_spec_witness :
    (∀ s ∈ [(1 : ℝ)], 0 < s) ∧
    ((FM._decode .learnt_encoder id id [[0]] [1]).length = 1 ∧
     ∀ i, i < ([[(0 : ℝ)]] : MatR).length →
       (∀ v ∈ (FM._decode .learnt_encoder id id [[0]] [1]).getD i [], 0 ≤ v) ∧
       ((FM._decode .learnt_encoder id id [[0]] [1]).getD i []).sum
         = ([(1 : ℝ)]).getD i 0) := by
  constructor
  · intro s hs
    rw [List.mem_singleton] at hs
    rw [hs]
    norm_num
  · exact _decode_spec .learnt_encoder id id [[0]] [1] rfl
      (by
        intro s hs
        rw [List.mem_singleton] at hs
        rw [hs]
        norm_num)
      (by
        intro r hrr
        rw [List.mem_singleton] at hrr
        rw [hrr]
        simp)
      (fun r h => by simpa using h)
      (fun r h => by simpa using h)

end CFGen
